import Mathlib

/-!
Shallow embedding of the naive Rabin cryptosystem (src/main.rs) and of its
companion text codec (src/encoding.rs), with proofs about the embedded
functions.

Conventions of the embedding:
- Rust BigInt is ℤ; Rust BigUint values are nonnegative ℤ.
- Rust's % and / on BigInt truncate toward zero: Int.tmod / Int.tdiv.
- BigInt::modpow (num-bigint) rounds like mod_floor (Int.fmod) and panics
  on a negative exponent or a zero modulus; panics are modelled as none.
- Rust String / &str values are lists of characters; str::len and
  str::find are byte-based, modelled with Char.utf8Size.
- A Rust panic (unwrap of None, division by zero) is Option.none.
-/

namespace NaiveRabin

/-- BigInt::modpow from the num-bigint crate: (b ^ e) reduced by a
floor-style remainder; a negative exponent or a zero modulus is a panic. -/
def modpow (b e m : ℤ) : Option ℤ :=
  if e < 0 ∨ m = 0 then none else some ((b ^ e.toNat).fmod m)

/-- encrypt from src/main.rs: (message * message) % n with Rust's
truncating remainder; n = 0 is a divide-by-zero panic. -/
def encrypt (message n : ℤ) : Option ℤ :=
  if n = 0 then none else some ((message * message).tmod n)

/-- compute_candidates from src/main.rs: CRT square-root combination.
The source negates both mp and mq when forming r3. The final % n is a
panic when n = 0 (unreachable from decrypt once the modpow calls have
succeeded, since then p ≠ 0 and q ≠ 0). -/
def compute_candidates (ciphertext p q n : ℤ) : Option (List ℤ) := do
  let mp ← modpow ciphertext ((p + 1).tdiv 4) p
  let mq ← modpow ciphertext ((q + 1).tdiv 4) q
  let yp ← modpow q (p - 2) p
  let yq ← modpow p (q - 2) q
  if n = 0 then none
  else
    let r1 := (yp * q * mp + yq * p * mq).tmod n
    let r2 := n - r1
    let r3 := (yp * q * (-mp) + yq * p * (-mq)).tmod n
    let r4 := n - r3
    some [r1, r2, r3, r4]

/-- decrypt from src/main.rs: n := p * q, then compute_candidates. -/
def decrypt (ciphertext p q : ℤ) : Option (List ℤ) :=
  compute_candidates ciphertext p q (p * q)

/-- gen_prime from src/main.rs. The crate's random prime generator
(rng.gen_prime, external to the repository) is modelled by the list of
its successive draws; the Rust loop keeps the first draw ≡ 3 (mod 4).
An exhausted draw list is none (the Rust loop would draw again). -/
def gen_prime : List ℤ → Option ℤ
  | [] => none
  | d :: ds => if d % 4 = 3 then some d else gen_prime ds

/-- generate_keypair from src/main.rs: two independent gen_prime draws,
p := primes[0], q := primes[1], n := p * q. The source performs no
equality check between the two draws. -/
def generate_keypair (draws₁ draws₂ : List ℤ) : Option (ℤ × ℤ × ℤ) := do
  let p ← gen_prime draws₁
  let q ← gen_prime draws₂
  some (p * q, p, q)

/-- Rust str::len of a string of these characters: UTF-8 byte count. -/
def byteLen (s : List Char) : ℕ := (s.map Char.utf8Size).sum

/-- Rust str::find with a char pattern: byte offset of first occurrence. -/
def byteFind : List Char → Char → Option ℕ
  | [], _ => none
  | d :: ds, c => if d = c then some 0 else (byteFind ds c).map (· + d.utf8Size)

/-- DEFAULT_SYMBOLS from src/encoding.rs. -/
def DEFAULT_SYMBOLS : String :=
  "0123456789ABCDEFGHIJKLMNOPQRSTUVWXYZabcdefghijklmnopqrstuvwxyz(.,;:!?)[<+-*/=>]@| "

/-- The character fold of str2num from src/encoding.rs: num := num * base
+ pos, where pos is the byte offset produced by str::find; a character
absent from the digitstring yields None. -/
def str2numGo (ds : List Char) (base : ℤ) : ℤ → List Char → Option ℤ
  | num, [] => some num
  | num, c :: cs =>
    match byteFind ds c with
    | some pos => str2numGo ds base (num * base + (pos : ℤ)) cs
    | none => none

/-- str2num from src/encoding.rs: base is the byte length of the
digitstring, accumulator starts at 0. -/
def str2num (s ds : List Char) : Option ℤ :=
  str2numGo ds (byteLen ds : ℤ) 0 s

/-- The while loop of num2str from src/encoding.rs, with explicit fuel;
returns the pushed characters in push order (least significant digit
first). none models a panic (chars().nth(..).unwrap() out of range, or
% by a zero base) or fuel exhaustion; the Rust loop does not terminate
when base < 2 and current > 0, which only fuel exhaustion can model. -/
def num2strLoop (ds : List Char) (base : ℤ) : ℕ → ℤ → Option (List Char)
  | 0, _ => none
  | fuel + 1, current =>
    if 0 < current then
      if base = 0 then none
      else
        match ds.get? (current.tmod base).toNat with
        | none => none
        | some ch => (num2strLoop ds base fuel (current.tdiv base)).map (ch :: ·)
    else some []

/-- num2str from src/encoding.rs: 0 is special-cased to the first
character of the digitstring (a panic on an empty digitstring); the
general loop collects digits least significant first and the result is
reversed. The fuel n.toNat + 1 is sufficient whenever the Rust loop
terminates at all (base ≥ 2, proved below as num2strLoop_eq_digits). -/
def num2str (n : ℤ) (ds : List Char) : Option (List Char) :=
  if n = 0 then
    match ds with
    | [] => none
    | c :: _ => some [c]
  else
    (num2strLoop ds (byteLen ds : ℤ) (n.toNat + 1) n).map List.reverse

/-- The digit value of a digitstring character: the byte offset that
str::find returns (with a junk default of 0 for absent characters). -/
def bidx (ds : List Char) (c : Char) : ℕ := (byteFind ds c).getD 0

/-- byteFind finds exactly the characters of the digitstring. -/
theorem byteFind_eq_none_iff (ds : List Char) (c : Char) :
    byteFind ds c = none ↔ c ∉ ds := by
  induction ds with
  | nil => simp [byteFind]
  | cons d ds ih =>
    by_cases hdc : d = c
    · simp [byteFind, hdc]
    · simp only [byteFind, if_neg hdc, Option.map_eq_none', ih, List.mem_cons]
      constructor
      · intro h
        push_neg
        exact ⟨fun h1 => hdc h1.symm, h⟩
      · intro h
        push_neg at h
        exact h.2

/-- The str2num fold fails exactly when some character has no byteFind. -/
theorem str2numGo_eq_none_iff (ds : List Char) (base : ℤ) (s : List Char) :
    ∀ num : ℤ, (str2numGo ds base num s = none ↔ ∃ c ∈ s, byteFind ds c = none) := by
  induction s with
  | nil => intro num; simp [str2numGo]
  | cons c cs ih =>
    intro num
    cases hfind : byteFind ds c with
    | none =>
      constructor
      · intro _
        exact ⟨c, List.mem_cons_self c cs, hfind⟩
      · intro _
        simp [str2numGo, hfind]
    | some pos =>
      simp only [str2numGo, hfind, ih]
      constructor
      · rintro ⟨x, hx, hfx⟩
        exact ⟨x, List.mem_cons_of_mem c hx, hfx⟩
      · rintro ⟨x, hx, hfx⟩
        rcases List.mem_cons.mp hx with rfl | hx
        · exact absurd hfx (by simp [hfind])
        · exact ⟨x, hx, hfx⟩

/-- A digitstring of one-byte characters has byte length equal to its
character count. -/
theorem byteLen_eq_length (ds : List Char) (h : ∀ c ∈ ds, c.utf8Size = 1) :
    byteLen ds = ds.length := by
  induction ds with
  | nil => rfl
  | cons d t ih =>
    have hd : d.utf8Size = 1 := h d (List.mem_cons_self d t)
    have ht := ih (fun c hc => h c (List.mem_cons_of_mem d hc))
    simp only [byteLen, List.map_cons, List.sum_cons, List.length_cons] at *
    omega

/-- A byte offset found by byteFind is below the byte length. -/
theorem byteFind_lt_byteLen (ds : List Char) (c : Char) (k : ℕ)
    (h : byteFind ds c = some k) : k < byteLen ds := by
  induction ds generalizing k with
  | nil => simp [byteFind] at h
  | cons d t ih =>
    simp only [byteFind] at h
    by_cases hdc : d = c
    · rw [if_pos hdc] at h
      obtain rfl := Option.some_inj.mp h
      simp only [byteLen, List.map_cons, List.sum_cons]
      have := d.utf8Size_pos
      omega
    · rw [if_neg hdc] at h
      cases hfind : byteFind t c with
      | none => rw [hfind] at h; simp at h
      | some w =>
        rw [hfind] at h
        simp only [Option.map_some'] at h
        obtain rfl := Option.some_inj.mp h
        have := ih w hfind
        simp only [byteLen, List.map_cons, List.sum_cons] at *
        omega

/-- Looking a found byte offset back up by character index recovers the
character, provided every digitstring character is one byte. -/
theorem get?_of_byteFind (ds : List Char) (hascii : ∀ c ∈ ds, c.utf8Size = 1)
    (c : Char) (k : ℕ) (h : byteFind ds c = some k) : ds.get? k = some c := by
  induction ds generalizing k with
  | nil => simp [byteFind] at h
  | cons d t ih =>
    simp only [byteFind] at h
    by_cases hdc : d = c
    · rw [if_pos hdc] at h
      obtain rfl := Option.some_inj.mp h
      simp [hdc]
    · rw [if_neg hdc] at h
      cases hfind : byteFind t c with
      | none => rw [hfind] at h; simp at h
      | some w =>
        rw [hfind] at h
        simp only [Option.map_some'] at h
        obtain rfl := Option.some_inj.mp h
        have hd1 : d.utf8Size = 1 := hascii d (List.mem_cons_self d t)
        rw [hd1]
        simpa using ih (fun x hx => hascii x (List.mem_cons_of_mem d hx)) w hfind

/-- A character differing from the digitstring head never gets offset 0. -/
theorem byteFind_cons_ne_zero (d c : Char) (t : List Char) (hdc : d ≠ c) (k : ℕ)
    (h : byteFind (d :: t) c = some k) : k ≠ 0 := by
  simp only [byteFind, if_neg hdc] at h
  cases hfind : byteFind t c with
  | none => rw [hfind] at h; simp at h
  | some w =>
    rw [hfind] at h
    simp only [Option.map_some'] at h
    obtain rfl := Option.some_inj.mp h
    have := d.utf8Size_pos
    omega

/-- On a character of the digitstring, byteFind returns its bidx. -/
theorem byteFind_eq_bidx (ds : List Char) (c : Char) (hc : c ∈ ds) :
    byteFind ds c = some (bidx ds c) := by
  cases h : byteFind ds c with
  | none => exact absurd hc ((byteFind_eq_none_iff ds c).mp h)
  | some k => simp [bidx, h]

/-- With a base of at least 2 and fuel above the current value, the
num2str loop computes exactly the base-b digit list of current (least
significant digit first), each digit looked up in the digitstring by
character index. -/
theorem num2strLoop_eq_digits (ds : List Char) (b : ℕ) (hb : 2 ≤ b) :
    ∀ (fuel : ℕ) (current : ℤ), current.toNat < fuel →
      num2strLoop ds (b : ℤ) fuel current = (Nat.digits b current.toNat).mapM ds.get? := by
  intro fuel
  induction fuel with
  | zero => intro current h; exact absurd h (Nat.not_lt_zero _)
  | succ fuel ih =>
    intro current hlt
    by_cases hcur : 0 < current
    · obtain ⟨m, rfl⟩ : ∃ m : ℕ, current = (m : ℤ) :=
        ⟨current.toNat, (Int.toNat_of_nonneg (le_of_lt hcur)).symm⟩
      have hm : 0 < m := by exact_mod_cast hcur
      have hb0 : ¬ ((b : ℤ) = 0) := by
        have : b ≠ 0 := by omega
        exact_mod_cast this
      have htoNat : ((m : ℤ)).toNat = m := Int.toNat_ofNat m
      rw [htoNat] at hlt ⊢
      have hmod : ((m : ℤ).tmod (b : ℤ)).toNat = m % b := by
        rw [← Int.ofNat_tmod]
        exact Int.toNat_ofNat _
      have hdiv : (m : ℤ).tdiv (b : ℤ) = ((m / b : ℕ) : ℤ) := (Int.ofNat_tdiv m b).symm
      rw [Nat.digits_def' (by omega : 1 < b) hm, List.mapM_cons]
      simp only [num2strLoop, if_pos hcur, if_neg hb0, hmod, hdiv]
      have hrec : num2strLoop ds (b : ℤ) fuel ((m / b : ℕ) : ℤ)
          = (Nat.digits b (m / b)).mapM ds.get? := by
        have ht2 : ((m / b : ℕ) : ℤ).toNat = m / b := Int.toNat_ofNat _
        have hsmall : m / b < fuel := by
          have h1 : m / b < m := Nat.div_lt_self hm (by omega)
          omega
        rw [ih _ (by rw [ht2]; exact hsmall), ht2]
      cases hget : ds.get? (m % b) with
      | none => simp [hget]
      | some ch =>
        rw [hrec]
        cases hmapM : (Nat.digits b (m / b)).mapM ds.get? with
        | none => simp [hget, hmapM]
        | some l => simp [hget, hmapM]
    · have h0 : current.toNat = 0 := Int.toNat_of_nonpos (le_of_not_lt hcur)
      rw [h0, Nat.digits_zero, List.mapM_nil]
      simp [num2strLoop, if_neg hcur]

/-- mapM of the character lookup succeeds on in-range digit lists. -/
theorem mapM_get?_total (ds : List Char) :
    ∀ l : List ℕ, (∀ d ∈ l, d < ds.length) →
      ∃ r : List Char, l.mapM ds.get? = some r ∧ r.length = l.length := by
  intro l
  induction l with
  | nil => intro _; exact ⟨[], rfl, rfl⟩
  | cons d t ih =>
    intro h
    obtain ⟨r, hr, hlen⟩ := ih (fun x hx => h x (List.mem_cons_of_mem d hx))
    have hd : d < ds.length := h d (List.mem_cons_self d t)
    refine ⟨ds.get ⟨d, hd⟩ :: r, ?_, by simp [hlen]⟩
    rw [List.mapM_cons, List.get?_eq_get hd, hr]
    rfl

/-- A successful mapM over Option commutes with list reversal. -/
theorem mapM_reverse_of_mapM {α β : Type} (f : α → Option β) :
    ∀ (l : List α) (r : List β), l.mapM f = some r → l.reverse.mapM f = some r.reverse := by
  intro l
  induction l with
  | nil =>
    intro r h
    rw [List.mapM_nil] at h
    obtain rfl : ([] : List β) = r := by simpa using h
    rfl
  | cons a t ih =>
    intro r h
    rw [List.mapM_cons] at h
    cases hfa : f a with
    | none => rw [hfa] at h; simp at h
    | some b =>
      rw [hfa] at h
      cases hmt : t.mapM f with
      | none => rw [hmt] at h; simp at h
      | some rt =>
        rw [hmt] at h
        obtain rfl : b :: rt = r := by simpa using h
        rw [List.reverse_cons, List.mapM_append, ih rt hmt]
        simp [List.mapM.loop, hfa, List.reverse_cons]

/-- Decoding the digit list of an encoded string recovers the string. -/
theorem mapM_get?_map_bidx (ds : List Char) (hascii : ∀ c ∈ ds, c.utf8Size = 1) :
    ∀ s : List Char, (∀ c ∈ s, c ∈ ds) → (s.map (bidx ds)).mapM ds.get? = some s := by
  intro s
  induction s with
  | nil => intro _; rfl
  | cons c cs ih =>
    intro h
    rw [List.map_cons, List.mapM_cons]
    have hc : c ∈ ds := h c (List.mem_cons_self c cs)
    have hget : ds.get? (bidx ds c) = some c :=
      get?_of_byteFind ds hascii c (bidx ds c) (byteFind_eq_bidx ds c hc)
    rw [hget, ih (fun x hx => h x (List.mem_cons_of_mem c hx))]
    rfl

/-- When every character is found, the str2num fold succeeds and computes
the positional fold of the digit values. -/
theorem str2numGo_found (ds : List Char) (base : ℤ) :
    ∀ (s : List Char) (num : ℤ), (∀ c ∈ s, c ∈ ds) →
      str2numGo ds base num s =
        some ((s.map (fun c => (bidx ds c : ℤ))).foldl (fun n d => n * base + d) num) := by
  intro s
  induction s with
  | nil => intro num _; rfl
  | cons c cs ih =>
    intro num h
    have hc : c ∈ ds := h c (List.mem_cons_self c cs)
    simp only [str2numGo, byteFind_eq_bidx ds c hc]
    rw [ih (num * base + (bidx ds c : ℤ)) (fun x hx => h x (List.mem_cons_of_mem c hx))]
    simp [List.foldl_cons, List.map_cons]

/-- The most-significant-first fold equals ofDigits of the reversed digit
list, plus the accumulator scaled by base to the digit count. -/
theorem foldl_eq_ofDigits (b : ℕ) (f : Char → ℕ) :
    ∀ (s : List Char) (acc : ℤ),
      (s.map (fun c => (f c : ℤ))).foldl (fun n d => n * (b : ℤ) + d) acc =
        ((Nat.ofDigits b (s.map f).reverse : ℕ) : ℤ) + acc * (b : ℤ) ^ s.length := by
  intro s
  induction s with
  | nil => intro acc; simp [Nat.ofDigits]
  | cons c t ih =>
    intro acc
    rw [List.map_cons, List.foldl_cons, ih]
    rw [List.map_cons, List.reverse_cons, Nat.ofDigits_append, Nat.ofDigits_singleton,
      List.length_reverse, List.length_map, List.length_cons]
    push_cast
    ring

/-- Nat.digits inverts Nat.ofDigits on a digit list with a nonzero most
significant digit, stated for a list in snoc form. -/
theorem digits_ofDigits_concat (b : ℕ) (hb : 1 < b) (l : List ℕ) (k : ℕ)
    (hlt : ∀ x ∈ l ++ [k], x < b) (hk : k ≠ 0) :
    Nat.digits b (Nat.ofDigits b (l ++ [k])) = l ++ [k] := by
  apply Nat.digits_ofDigits b hb _ hlt
  intro h
  rw [List.getLast_concat]
  exact hk

/-- The truncating remainder is congruent to the dividend. -/
theorem tmod_modEq (a n : ℤ) : a.tmod n ≡ a [ZMOD n] := by
  rw [Int.modEq_iff_dvd, Int.tmod_def, sub_sub_cancel]
  exact dvd_mul_right n _

/-- For a prime P ≡ 3 (mod 4) and a quadratic residue c modulo P, the
value c ^ ((P + 1) / 4) is a square root of c modulo P. -/
theorem pow_succ_div_four_sq (P : ℕ) (hP : P.Prime) (hP4 : P % 4 = 3) (c x : ℤ)
    (hx : x * x ≡ c [ZMOD (P : ℤ)]) :
    c ^ ((P + 1) / 4) * c ^ ((P + 1) / 4) ≡ c [ZMOD (P : ℤ)] := by
  have ha4 : 4 * ((P + 1) / 4) = P + 1 := by omega
  have h2 : 2 ≤ P := hP.two_le
  by_cases hdvd : (P : ℤ) ∣ x
  · have hx0 : x ≡ 0 [ZMOD (P : ℤ)] := Int.modEq_zero_iff_dvd.mpr hdvd
    have hc0 : c ≡ 0 [ZMOD (P : ℤ)] := by
      calc c ≡ x * x [ZMOD (P : ℤ)] := hx.symm
        _ ≡ 0 * 0 [ZMOD (P : ℤ)] := hx0.mul hx0
        _ = 0 := by ring
    calc c ^ ((P + 1) / 4) * c ^ ((P + 1) / 4)
        ≡ 0 ^ ((P + 1) / 4) * 0 ^ ((P + 1) / 4) [ZMOD (P : ℤ)] :=
          (hc0.pow _).mul (hc0.pow _)
      _ = 0 := by rw [zero_pow (by omega : (P + 1) / 4 ≠ 0)]; ring
      _ ≡ c [ZMOD (P : ℤ)] := hc0.symm
  · have hPp : Prime (P : ℤ) := Nat.prime_iff_prime_int.mp hP
    have hcop : IsCoprime x (P : ℤ) := ((hPp.coprime_iff_not_dvd).mpr hdvd).symm
    have hferm : x ^ (P - 1) ≡ 1 [ZMOD (P : ℤ)] :=
      Int.ModEq.pow_card_sub_one_eq_one hP hcop
    calc c ^ ((P + 1) / 4) * c ^ ((P + 1) / 4)
        = c ^ (2 * ((P + 1) / 4)) := by rw [two_mul, pow_add]
      _ ≡ (x * x) ^ (2 * ((P + 1) / 4)) [ZMOD (P : ℤ)] := (hx.symm).pow _
      _ = x ^ (4 * ((P + 1) / 4)) := by
          rw [show x * x = x ^ 2 by ring, ← pow_mul]
          congr 1
          omega
      _ = x ^ ((P - 1) + 2) := by rw [ha4]; congr 1; omega
      _ = x ^ (P - 1) * x ^ 2 := pow_add x _ _
      _ ≡ 1 * x ^ 2 [ZMOD (P : ℤ)] := hferm.mul_right _
      _ = x * x := by ring
      _ ≡ c [ZMOD (P : ℤ)] := hx

/-- The CRT addend (q^(p-2) mod p) * q * (c^((p+1)/4) mod p), plus any
multiple of p, squares to c modulo p. -/
theorem crt_addend_sq (P Q : ℕ) (c B x : ℤ) (hP : P.Prime) (hQ : Q.Prime)
    (hP4 : P % 4 = 3) (hne : P ≠ Q) (hB : (P : ℤ) ∣ B)
    (hx : x * x ≡ c [ZMOD (P : ℤ)]) :
    ((((Q : ℤ) ^ (P - 2)) % (P : ℤ)) * (Q : ℤ) * ((c ^ ((P + 1) / 4)) % (P : ℤ)) + B) *
      ((((Q : ℤ) ^ (P - 2)) % (P : ℤ)) * (Q : ℤ) * ((c ^ ((P + 1) / 4)) % (P : ℤ)) + B)
      ≡ c [ZMOD (P : ℤ)] := by
  have hemod : ∀ a : ℤ, a % (P : ℤ) ≡ a [ZMOD (P : ℤ)] :=
    fun a => Int.emod_emod_of_dvd a dvd_rfl
  have hB0 : B ≡ 0 [ZMOD (P : ℤ)] := Int.modEq_zero_iff_dvd.mpr hB
  have hinv : ((Q : ℤ) ^ (P - 2)) * (Q : ℤ) ≡ 1 [ZMOD (P : ℤ)] := by
    have hcop : IsCoprime ((Q : ℤ)) ((P : ℤ)) :=
      Nat.isCoprime_iff_coprime.mpr ((Nat.coprime_primes hQ hP).mpr (fun h => hne h.symm))
    have hferm : (Q : ℤ) ^ (P - 1) ≡ 1 [ZMOD (P : ℤ)] :=
      Int.ModEq.pow_card_sub_one_eq_one hP hcop
    have he : (P - 2) + 1 = P - 1 := by have := hP.two_le; omega
    calc ((Q : ℤ) ^ (P - 2)) * (Q : ℤ) = (Q : ℤ) ^ ((P - 2) + 1) := (pow_succ _ _).symm
      _ = (Q : ℤ) ^ (P - 1) := by rw [he]
      _ ≡ 1 [ZMOD (P : ℤ)] := hferm
  have hA : (((Q : ℤ) ^ (P - 2)) % (P : ℤ)) * (Q : ℤ) * ((c ^ ((P + 1) / 4)) % (P : ℤ)) + B
      ≡ c ^ ((P + 1) / 4) [ZMOD (P : ℤ)] := by
    calc (((Q : ℤ) ^ (P - 2)) % (P : ℤ)) * (Q : ℤ) * ((c ^ ((P + 1) / 4)) % (P : ℤ)) + B
        ≡ ((Q : ℤ) ^ (P - 2)) * (Q : ℤ) * (c ^ ((P + 1) / 4)) + 0 [ZMOD (P : ℤ)] :=
          (((hemod _).mul_right _).mul (hemod _)).add hB0
      _ = ((Q : ℤ) ^ (P - 2) * (Q : ℤ)) * (c ^ ((P + 1) / 4)) := by ring
      _ ≡ 1 * (c ^ ((P + 1) / 4)) [ZMOD (P : ℤ)] := hinv.mul_right _
      _ = c ^ ((P + 1) / 4) := one_mul _
  exact (hA.mul hA).trans (pow_succ_div_four_sq P hP hP4 c x hx)

/-- The full CRT combination squares to c modulo p * q. -/
theorem crt_sum_sq_modEq (P Q : ℕ) (c x : ℤ) (hP : P.Prime) (hQ : Q.Prime)
    (hP4 : P % 4 = 3) (hQ4 : Q % 4 = 3) (hne : P ≠ Q)
    (hxP : x * x ≡ c [ZMOD (P : ℤ)]) (hxQ : x * x ≡ c [ZMOD (Q : ℤ)]) :
    ((((Q : ℤ) ^ (P - 2)) % (P : ℤ)) * (Q : ℤ) * ((c ^ ((P + 1) / 4)) % (P : ℤ)) +
      (((P : ℤ) ^ (Q - 2)) % (Q : ℤ)) * (P : ℤ) * ((c ^ ((Q + 1) / 4)) % (Q : ℤ))) *
    ((((Q : ℤ) ^ (P - 2)) % (P : ℤ)) * (Q : ℤ) * ((c ^ ((P + 1) / 4)) % (P : ℤ)) +
      (((P : ℤ) ^ (Q - 2)) % (Q : ℤ)) * (P : ℤ) * ((c ^ ((Q + 1) / 4)) % (Q : ℤ)))
      ≡ c [ZMOD ((P : ℤ) * (Q : ℤ))] := by
  have hmodP := crt_addend_sq P Q c
    ((((P : ℤ) ^ (Q - 2)) % (Q : ℤ)) * (P : ℤ) * ((c ^ ((Q + 1) / 4)) % (Q : ℤ))) x
    hP hQ hP4 hne
    ⟨(((P : ℤ) ^ (Q - 2)) % (Q : ℤ)) * ((c ^ ((Q + 1) / 4)) % (Q : ℤ)), by ring⟩ hxP
  have hmodQ' := crt_addend_sq Q P c
    ((((Q : ℤ) ^ (P - 2)) % (P : ℤ)) * (Q : ℤ) * ((c ^ ((P + 1) / 4)) % (P : ℤ))) x
    hQ hP hQ4 (fun h => hne h.symm)
    ⟨(((Q : ℤ) ^ (P - 2)) % (P : ℤ)) * ((c ^ ((P + 1) / 4)) % (P : ℤ)), by ring⟩ hxQ
  have hmodQ : ((((Q : ℤ) ^ (P - 2)) % (P : ℤ)) * (Q : ℤ) * ((c ^ ((P + 1) / 4)) % (P : ℤ)) +
      (((P : ℤ) ^ (Q - 2)) % (Q : ℤ)) * (P : ℤ) * ((c ^ ((Q + 1) / 4)) % (Q : ℤ))) *
    ((((Q : ℤ) ^ (P - 2)) % (P : ℤ)) * (Q : ℤ) * ((c ^ ((P + 1) / 4)) % (P : ℤ)) +
      (((P : ℤ) ^ (Q - 2)) % (Q : ℤ)) * (P : ℤ) * ((c ^ ((Q + 1) / 4)) % (Q : ℤ)))
      ≡ c [ZMOD (Q : ℤ)] := by
    calc ((((Q : ℤ) ^ (P - 2)) % (P : ℤ)) * (Q : ℤ) * ((c ^ ((P + 1) / 4)) % (P : ℤ)) +
        (((P : ℤ) ^ (Q - 2)) % (Q : ℤ)) * (P : ℤ) * ((c ^ ((Q + 1) / 4)) % (Q : ℤ))) *
      ((((Q : ℤ) ^ (P - 2)) % (P : ℤ)) * (Q : ℤ) * ((c ^ ((P + 1) / 4)) % (P : ℤ)) +
        (((P : ℤ) ^ (Q - 2)) % (Q : ℤ)) * (P : ℤ) * ((c ^ ((Q + 1) / 4)) % (Q : ℤ)))
        = ((((P : ℤ) ^ (Q - 2)) % (Q : ℤ)) * (P : ℤ) * ((c ^ ((Q + 1) / 4)) % (Q : ℤ)) +
        (((Q : ℤ) ^ (P - 2)) % (P : ℤ)) * (Q : ℤ) * ((c ^ ((P + 1) / 4)) % (P : ℤ))) *
      ((((P : ℤ) ^ (Q - 2)) % (Q : ℤ)) * (P : ℤ) * ((c ^ ((Q + 1) / 4)) % (Q : ℤ)) +
        (((Q : ℤ) ^ (P - 2)) % (P : ℤ)) * (Q : ℤ) * ((c ^ ((P + 1) / 4)) % (P : ℤ))) := by ring
      _ ≡ c [ZMOD (Q : ℤ)] := hmodQ'
  have hcop : ((P : ℤ)).natAbs.Coprime ((Q : ℤ)).natAbs := by
    simp only [Int.natAbs_ofNat]
    exact (Nat.coprime_primes hP hQ).mpr hne
  exact (Int.modEq_and_modEq_iff_modEq_mul hcop).mp ⟨hmodP, hmodQ⟩

/-- Shifting a square root by the modulus preserves the square. -/
theorem neg_shift_sq (N a c : ℤ) (h : a * a ≡ c [ZMOD N]) :
    (N - a) * (N - a) ≡ c [ZMOD N] := by
  have hN0 : N ≡ 0 [ZMOD N] := Int.modEq_zero_iff_dvd.mpr dvd_rfl
  have h1 : (N - a) * (N - a) ≡ (0 - a) * (0 - a) [ZMOD N] :=
    (hN0.sub (Int.ModEq.refl a)).mul (hN0.sub (Int.ModEq.refl a))
  have h2 : (0 - a) * (0 - a) = a * a := by ring
  rw [h2] at h1
  exact h1.trans h

/-- Truncating reduction preserves the square modulo N. -/
theorem tmod_sq_modEq (N X c : ℤ) (h : X * X ≡ c [ZMOD N]) :
    (X.tmod N) * (X.tmod N) ≡ c [ZMOD N] :=
  ((tmod_modEq X N).mul (tmod_modEq X N)).trans h

/-- Conversion of a modular square to the Rust remainder equation. -/
theorem tmod_sq_eq (N c r : ℤ) (hN : 0 < N) (hc0 : 0 ≤ c) (hcN : c < N)
    (h : r * r ≡ c [ZMOD N]) : (r * r).tmod N = c := by
  rw [Int.tmod_eq_emod (mul_self_nonneg r) (le_of_lt hN)]
  calc r * r % N = c % N := h
    _ = c := Int.emod_eq_of_lt hc0 hcN

/-- C1: the claim fails on the code. With the keypair (437, 19, 23) — a
possible output of generate_keypair, 19 and 23 being distinct 5-bit primes
both ≡ 3 (mod 4) — and message m = 2 (0 ≤ 2 < 437), decrypt applied to
encrypt 2 produces the candidate list [416, 21, -416, 853], which does not
contain 2: the source builds r3 by negating both mp and mq, so the two
mixed-sign CRT square roots are never produced. -/
theorem c1_decrypt_misses_message :
    Nat.Prime 19 ∧ Nat.Prime 23 ∧ (19 : ℤ) % 4 = 3 ∧ (23 : ℤ) % 4 = 3 ∧
    generate_keypair [19] [23] = some (19 * 23, 19, 23) ∧
    encrypt 2 (19 * 23) = some 4 ∧
    decrypt 4 19 23 = some [416, 21, -416, 853] ∧
    (2 : ℤ) ∉ ([416, 21, -416, 853] : List ℤ) := by decide

/-- C2: the claim fails on the code. When the two independent prime draws
are equal — here both draws produce 3, a prime ≡ 3 (mod 4) — the generator
keeps them both: it returns p = q = 3 and never resamples (the source has
no equality check at all). -/
theorem c2_no_resampling_on_equal_draws :
    Nat.Prime 3 ∧ (3 : ℤ) % 4 = 3 ∧
    generate_keypair [3] [3] = some (3 * 3, 3, 3) := by decide

/-- C4 counterexample: with p = 3, q = 7 (n = 21) and ciphertext 4 the
candidate list is [16, 5, -16, 37]; the third candidate is negative and
the fourth is ≥ n, so not every candidate lies in [0, n). -/
theorem c4_candidate_out_of_range :
    decrypt 4 3 7 = some [16, 5, -16, 37] ∧
    ¬ (0 ≤ (-16 : ℤ)) ∧ ¬ ((37 : ℤ) < 3 * 7) := by decide

/-- C4 (amended): whenever decrypt returns at all, it returns a list of
exactly four integers. -/
theorem c4_decrypt_returns_four (c p q : ℤ) (l : List ℤ)
    (h : decrypt c p q = some l) : l.length = 4 := by
  unfold decrypt compute_candidates at h
  rcases h1 : modpow c ((p + 1).tdiv 4) p with _ | mp <;> rw [h1] at h
  · simp at h
  rcases h2 : modpow c ((q + 1).tdiv 4) q with _ | mq <;> rw [h2] at h
  · simp at h
  rcases h3 : modpow q (p - 2) p with _ | yp <;> rw [h3] at h
  · simp at h
  rcases h4 : modpow p (q - 2) q with _ | yq <;> rw [h4] at h
  · simp at h
  simp only [Option.some_bind] at h
  split at h
  · simp at h
  · obtain rfl := (Option.some_inj.mp h).symm
    rfl

/-- Witness for c4_decrypt_returns_four at ciphertext 4, p = 3, q = 7. -/
theorem c4_decrypt_returns_four_witness : ([16, 5, -16, 37] : List ℤ).length = 4 :=
  c4_decrypt_returns_four 4 3 7 [16, 5, -16, 37] (by decide)

/-- C5 counterexample: the default alphabet has 82 symbols (both as a
character count and as the byte count the source uses for the base), not
93 as the claim states. -/
theorem c5_default_alphabet_not_93_symbols :
    DEFAULT_SYMBOLS.data.length ≠ 93 ∧ byteLen DEFAULT_SYMBOLS.data ≠ 93 := by
  decide

/-- C5 (amended): the default alphabet has 82 symbols, and decoding the
literal integer with it yields exactly the literal string. -/
theorem c5_concrete_vector :
    DEFAULT_SYMBOLS.data.length = 82 ∧
    num2str 5028722558842848375853089736952727210229032068167510534250475
      DEFAULT_SYMBOLS.data = some "Non scholae, sed vitae discimus.".data := by
  decide

/-- C7 counterexample: the failure value of encode carries no character
and no position. encode("abc$") — offending character '$' at position 3 —
and encode("ab%c") — offending character '%' at position 2 — return the
very same value None, so the caller can recover neither the character nor
the position from the failure. -/
theorem c7_failure_carries_no_payload :
    str2num "abc$".data DEFAULT_SYMBOLS.data = none ∧
    str2num "ab%c".data DEFAULT_SYMBOLS.data = none ∧
    str2num "abc$".data DEFAULT_SYMBOLS.data = str2num "ab%c".data DEFAULT_SYMBOLS.data := by
  decide

/-- C7 (amended): encode fails — returning the payload-free None — if and
only if some character of the text is absent from the alphabet. -/
theorem c7_encode_fails_iff_invalid_char (s ds : List Char) :
    str2num s ds = none ↔ ∃ c ∈ s, c ∉ ds := by
  unfold str2num
  rw [str2numGo_eq_none_iff]
  constructor
  · rintro ⟨c, hc, hfind⟩
    exact ⟨c, hc, (byteFind_eq_none_iff ds c).mp hfind⟩
  · rintro ⟨c, hc, hmem⟩
    exact ⟨c, hc, (byteFind_eq_none_iff ds c).mpr hmem⟩

/-- C8 counterexample: encrypt with the non-positive modulus n = -21
raises nothing: it returns the ordinary value 4 (there is no InvalidModulus
anywhere in the source). -/
theorem c8_no_invalid_modulus_error :
    (-21 : ℤ) ≤ 0 ∧ encrypt 2 (-21) = some 4 := by decide

/-- C8 (amended): neither encrypt nor decrypt performs modulus validation.
encrypt returns (m * m) % n (Rust truncating remainder) for every n ≠ 0 —
negative n included — and panics with a division by zero only at n = 0;
decrypt with p ≤ 0 or q ≤ 0 ends in a panic of modpow (zero modulus or
negative exponent), not in a typed error. -/
theorem c8_no_modulus_validation :
    (∀ message n : ℤ, n ≠ 0 → encrypt message n = some ((message * message).tmod n)) ∧
    (∀ message : ℤ, encrypt message 0 = none) ∧
    (∀ c p q : ℤ, p ≤ 0 ∨ q ≤ 0 → decrypt c p q = none) := by
  refine ⟨fun message n hn => by simp [encrypt, hn], fun message => by simp [encrypt], ?_⟩
  intro c p q h
  unfold decrypt compute_candidates modpow
  rcases h with hp | hq
  · by_cases h1 : (p + 1).tdiv 4 < 0 ∨ p = 0
    · simp [h1]
    · push_neg at h1
      have h3 : p - 2 < 0 := by
        have := h1.2
        omega
      by_cases h2 : (q + 1).tdiv 4 < 0 ∨ q = 0
      · simp [h1.1, h1.2, h2]
      · push_neg at h2
        simp [h1.1, h1.2, h2.1, h2.2, h3]
  · by_cases h1 : (p + 1).tdiv 4 < 0 ∨ p = 0
    · simp [h1]
    · push_neg at h1
      by_cases h2 : (q + 1).tdiv 4 < 0 ∨ q = 0
      · simp [h1.1, h1.2, h2]
      · push_neg at h2
        have h4 : q - 2 < 0 := by
          have := h2.2
          omega
        by_cases h3 : p - 2 < 0
        · simp [h1.1, h1.2, h2.1, h2.2, h3]
        · simp [h1.1, h1.2, h2.1, h2.2, h3, h4]

/-- Witness for c8_no_modulus_validation at concrete inputs. -/
theorem c8_no_modulus_validation_witness :
    encrypt 2 (-21) = some ((2 * 2 : ℤ).tmod (-21)) ∧
    encrypt 2 0 = none ∧ decrypt 4 (-3) 7 = none :=
  ⟨c8_no_modulus_validation.1 2 (-21) (by decide),
   c8_no_modulus_validation.2.1 2,
   c8_no_modulus_validation.2.2 4 (-3) 7 (Or.inl (by decide))⟩

/-- C9: decoding 0 over any non-empty alphabet returns the one-character
string made of the alphabet's first symbol. -/
theorem c9_zero_decode (c : Char) (t : List Char) :
    num2str 0 (c :: t) = some [c] := rfl

/-- C6 counterexample: the round trip fails at two concrete inputs the
claim covers. The empty string (vacuously free of leading index-0
symbols) encodes to 0, which decodes to the index-0 symbol, not to the
empty string; and over the unique-symbol alphabet ['é', 'a'] the string
"a" encodes via the byte offset 2 (str::find is byte-based), whose decode
panics because chars().nth(2) is out of range. -/
theorem c6_round_trip_fails :
    (str2num [] "01".data = some 0 ∧ num2str 0 "01".data ≠ some ([] : List Char)) ∧
    (str2num ['a'] ['é', 'a'] = some 2 ∧ num2str 2 ['é', 'a'] ≠ some ['a']) := by
  decide

/-- C6 (amended): for every alphabet of unique one-byte symbols and every
non-empty string s of alphabet symbols whose leading character is not the
index-0 symbol, decoding the encoding of s returns s. -/
theorem c6_round_trip (ds s : List Char) (hnodup : ds.Nodup)
    (hascii : ∀ c ∈ ds, c.utf8Size = 1) (hs : s ≠ [])
    (hmem : ∀ c ∈ s, c ∈ ds) (hlead : s.head? ≠ ds.head?) :
    ∃ v : ℤ, str2num s ds = some v ∧ num2str v ds = some s := by
  obtain ⟨c₀, s', rfl⟩ : ∃ c₀ s', s = c₀ :: s' := by
    cases s with
    | nil => exact absurd rfl hs
    | cons a t => exact ⟨a, t, rfl⟩
  have hc₀ : c₀ ∈ ds := hmem c₀ (List.mem_cons_self c₀ s')
  obtain ⟨d₀, ds', rfl⟩ : ∃ d₀ ds', ds = d₀ :: ds' := by
    cases ds with
    | nil => exact absurd hc₀ (List.not_mem_nil c₀)
    | cons a t => exact ⟨a, t, rfl⟩
  have hlead' : d₀ ≠ c₀ := by
    intro h
    exact hlead (by rw [h]; rfl)
  have hk₀ : byteFind (d₀ :: ds') c₀ = some (bidx (d₀ :: ds') c₀) :=
    byteFind_eq_bidx _ c₀ hc₀
  have hk₀ne : bidx (d₀ :: ds') c₀ ≠ 0 := byteFind_cons_ne_zero d₀ c₀ ds' hlead' _ hk₀
  have hk₀lt : bidx (d₀ :: ds') c₀ < byteLen (d₀ :: ds') := byteFind_lt_byteLen _ c₀ _ hk₀
  have hb2 : 2 ≤ byteLen (d₀ :: ds') := by omega
  have hrev : ((c₀ :: s').map (bidx (d₀ :: ds'))).reverse
      = (s'.map (bidx (d₀ :: ds'))).reverse ++ [bidx (d₀ :: ds') c₀] := by
    rw [List.map_cons, List.reverse_cons]
  have henc : str2num (c₀ :: s') (d₀ :: ds') =
      some ((Nat.ofDigits (byteLen (d₀ :: ds'))
        (((c₀ :: s').map (bidx (d₀ :: ds'))).reverse) : ℕ) : ℤ) := by
    unfold str2num
    rw [str2numGo_found (d₀ :: ds') ((byteLen (d₀ :: ds') : ℕ) : ℤ) (c₀ :: s') 0 hmem,
      foldl_eq_ofDigits (byteLen (d₀ :: ds')) (bidx (d₀ :: ds')) (c₀ :: s') 0]
    simp
  have hbounds : ∀ x ∈ (s'.map (bidx (d₀ :: ds'))).reverse ++ [bidx (d₀ :: ds') c₀],
      x < byteLen (d₀ :: ds') := by
    intro x hx
    rw [← hrev, List.mem_reverse] at hx
    obtain ⟨c, hcs, rfl⟩ := List.mem_map.mp hx
    exact byteFind_lt_byteLen _ c _ (byteFind_eq_bidx _ c (hmem c hcs))
  have hdig : Nat.digits (byteLen (d₀ :: ds'))
      (Nat.ofDigits (byteLen (d₀ :: ds'))
        ((s'.map (bidx (d₀ :: ds'))).reverse ++ [bidx (d₀ :: ds') c₀]))
      = (s'.map (bidx (d₀ :: ds'))).reverse ++ [bidx (d₀ :: ds') c₀] :=
    digits_ofDigits_concat _ (by omega) _ _ hbounds hk₀ne
  have hVne : Nat.ofDigits (byteLen (d₀ :: ds'))
      ((s'.map (bidx (d₀ :: ds'))).reverse ++ [bidx (d₀ :: ds') c₀]) ≠ 0 := by
    rw [← Nat.digits_ne_nil_iff_ne_zero (b := byteLen (d₀ :: ds'))]
    rw [hdig]
    simp
  have hmapM : (((c₀ :: s').map (bidx (d₀ :: ds'))).reverse).mapM (d₀ :: ds').get?
      = some ((c₀ :: s').reverse) :=
    mapM_reverse_of_mapM _ _ _ (mapM_get?_map_bidx _ hascii _ hmem)
  refine ⟨((Nat.ofDigits (byteLen (d₀ :: ds'))
    ((s'.map (bidx (d₀ :: ds'))).reverse ++ [bidx (d₀ :: ds') c₀]) : ℕ) : ℤ), ?_, ?_⟩
  · rw [henc, hrev]
  · unfold num2str
    rw [if_neg (by exact_mod_cast hVne)]
    rw [num2strLoop_eq_digits (d₀ :: ds') (byteLen (d₀ :: ds')) hb2 _ _ (Nat.lt_succ_self _)]
    rw [Int.toNat_ofNat, hdig, ← hrev, hmapM]
    simp

/-- Witness for c6_round_trip: the string "HELLO" over the default
alphabet round-trips. -/
theorem c6_round_trip_witness :
    ∃ v : ℤ, str2num "HELLO".data DEFAULT_SYMBOLS.data = some v ∧
      num2str v DEFAULT_SYMBOLS.data = some "HELLO".data :=
  c6_round_trip DEFAULT_SYMBOLS.data "HELLO".data (by decide) (by decide) (by decide)
    (by decide) (by decide)

/-- C10 counterexample: the alphabet ['é', 'a'] has two (unique) symbols,
yet decoding 2 panics instead of returning a string: the base is the byte
length 3, the extracted digit is 2, and chars().nth(2) is out of range. -/
theorem c10_decode_panics :
    2 ≤ (['é', 'a'] : List Char).length ∧ (0 : ℤ) ≤ 2 ∧
    num2str 2 ['é', 'a'] = none := by decide

/-- C10 (amended): for every alphabet of at least two one-byte symbols
and every nonnegative integer, decode terminates with a non-empty string. -/
theorem c10_decode_total (ds : List Char) (n : ℤ)
    (hlen : 2 ≤ ds.length) (hascii : ∀ c ∈ ds, c.utf8Size = 1) (hn : 0 ≤ n) :
    ∃ l, num2str n ds = some l ∧ l ≠ [] := by
  have hbyte : byteLen ds = ds.length := byteLen_eq_length ds hascii
  by_cases h0 : n = 0
  · subst h0
    cases ds with
    | nil => simp at hlen
    | cons c t => exact ⟨[c], rfl, by simp⟩
  · have hb : 2 ≤ byteLen ds := by omega
    have hdig := num2strLoop_eq_digits ds (byteLen ds) hb (n.toNat + 1) n (Nat.lt_succ_self _)
    have hbounds : ∀ d ∈ Nat.digits (byteLen ds) n.toNat, d < ds.length := by
      intro d hd
      have := Nat.digits_lt_base (by omega) hd
      omega
    obtain ⟨r, hr, hrlen⟩ := mapM_get?_total ds _ hbounds
    have hne : Nat.digits (byteLen ds) n.toNat ≠ [] := by
      rw [Nat.digits_ne_nil_iff_ne_zero]
      intro hc
      exact h0 (by omega)
    refine ⟨r.reverse, ?_, ?_⟩
    · unfold num2str
      rw [if_neg h0, hdig, hr]
      rfl
    · simp only [ne_eq, List.reverse_eq_nil_iff]
      intro hcon
      rw [hcon] at hrlen
      exact hne (List.length_eq_zero.mp hrlen.symm)

/-- Witness for c10_decode_total: decoding 5 over the alphabet "01". -/
theorem c10_decode_total_witness :
    ∃ l, num2str 5 "01".data = some l ∧ l ≠ [] :=
  c10_decode_total "01".data 5 (by decide) (by decide) (by decide)

/-- C3: for distinct primes p ≡ q ≡ 3 (mod 4) and a ciphertext that is a
quadratic residue modulo n = p * q with 0 ≤ ciphertext < n, decrypt
returns a list and every candidate r in it satisfies (r * r) % n =
ciphertext (Rust's truncating %, applied to the nonnegative square). -/
theorem c3_candidate_validity (P Q : ℕ) (c : ℤ)
    (hP : P.Prime) (hQ : Q.Prime) (hP4 : P % 4 = 3) (hQ4 : Q % 4 = 3)
    (hne : P ≠ Q) (hc0 : 0 ≤ c) (hcn : c < (P : ℤ) * (Q : ℤ))
    (hqr : ∃ x : ℤ, (x * x) % ((P : ℤ) * (Q : ℤ)) = c) :
    ∃ l, decrypt c (P : ℤ) (Q : ℤ) = some l ∧
      ∀ r ∈ l, (r * r).tmod ((P : ℤ) * (Q : ℤ)) = c := by
  have hp2 : 2 ≤ P := hP.two_le
  have hq2 : 2 ≤ Q := hQ.two_le
  have hp0 : (0 : ℤ) < (P : ℤ) := by exact_mod_cast (by omega : 0 < P)
  have hq0 : (0 : ℤ) < (Q : ℤ) := by exact_mod_cast (by omega : 0 < Q)
  have hN0 : (0 : ℤ) < (P : ℤ) * (Q : ℤ) := mul_pos hp0 hq0
  have hn0 : ¬ ((P : ℤ) * (Q : ℤ) = 0) := hN0.ne'
  have hmp : modpow c (((P : ℤ) + 1).tdiv 4) (P : ℤ)
      = some ((c ^ ((P + 1) / 4)) % (P : ℤ)) := by
    have he : ((P : ℤ) + 1).tdiv 4 = (((P + 1) / 4 : ℕ) : ℤ) := by
      rw [show ((P : ℤ) + 1) = ((P + 1 : ℕ) : ℤ) by push_cast; ring]
      exact (Int.ofNat_tdiv (P + 1) 4).symm
    simp only [modpow, he]
    rw [if_neg (by push_neg; exact ⟨Int.natCast_nonneg _, hp0.ne'⟩)]
    rw [Int.toNat_ofNat, Int.fmod_eq_emod _ (le_of_lt hp0)]
  have hmq : modpow c (((Q : ℤ) + 1).tdiv 4) (Q : ℤ)
      = some ((c ^ ((Q + 1) / 4)) % (Q : ℤ)) := by
    have he : ((Q : ℤ) + 1).tdiv 4 = (((Q + 1) / 4 : ℕ) : ℤ) := by
      rw [show ((Q : ℤ) + 1) = ((Q + 1 : ℕ) : ℤ) by push_cast; ring]
      exact (Int.ofNat_tdiv (Q + 1) 4).symm
    simp only [modpow, he]
    rw [if_neg (by push_neg; exact ⟨Int.natCast_nonneg _, hq0.ne'⟩)]
    rw [Int.toNat_ofNat, Int.fmod_eq_emod _ (le_of_lt hq0)]
  have hyp : modpow (Q : ℤ) ((P : ℤ) - 2) (P : ℤ)
      = some (((Q : ℤ) ^ (P - 2)) % (P : ℤ)) := by
    have he : ((P : ℤ) - 2) = ((P - 2 : ℕ) : ℤ) := by
      rw [Nat.cast_sub hp2]
      push_cast
      ring
    simp only [modpow, he]
    rw [if_neg (by push_neg; exact ⟨Int.natCast_nonneg _, hp0.ne'⟩)]
    rw [Int.toNat_ofNat, Int.fmod_eq_emod _ (le_of_lt hp0)]
  have hyq : modpow (P : ℤ) ((Q : ℤ) - 2) (Q : ℤ)
      = some (((P : ℤ) ^ (Q - 2)) % (Q : ℤ)) := by
    have he : ((Q : ℤ) - 2) = ((Q - 2 : ℕ) : ℤ) := by
      rw [Nat.cast_sub hq2]
      push_cast
      ring
    simp only [modpow, he]
    rw [if_neg (by push_neg; exact ⟨Int.natCast_nonneg _, hq0.ne'⟩)]
    rw [Int.toNat_ofNat, Int.fmod_eq_emod _ (le_of_lt hq0)]
  have hdec : decrypt c (P : ℤ) (Q : ℤ) = some
      [((((Q : ℤ) ^ (P - 2)) % (P : ℤ)) * (Q : ℤ) * ((c ^ ((P + 1) / 4)) % (P : ℤ)) +
          (((P : ℤ) ^ (Q - 2)) % (Q : ℤ)) * (P : ℤ) * ((c ^ ((Q + 1) / 4)) % (Q : ℤ))).tmod
            ((P : ℤ) * (Q : ℤ)),
        (P : ℤ) * (Q : ℤ) -
          ((((Q : ℤ) ^ (P - 2)) % (P : ℤ)) * (Q : ℤ) * ((c ^ ((P + 1) / 4)) % (P : ℤ)) +
          (((P : ℤ) ^ (Q - 2)) % (Q : ℤ)) * (P : ℤ) * ((c ^ ((Q + 1) / 4)) % (Q : ℤ))).tmod
            ((P : ℤ) * (Q : ℤ)),
        ((((Q : ℤ) ^ (P - 2)) % (P : ℤ)) * (Q : ℤ) * (-((c ^ ((P + 1) / 4)) % (P : ℤ))) +
          (((P : ℤ) ^ (Q - 2)) % (Q : ℤ)) * (P : ℤ) * (-((c ^ ((Q + 1) / 4)) % (Q : ℤ)))).tmod
            ((P : ℤ) * (Q : ℤ)),
        (P : ℤ) * (Q : ℤ) -
          ((((Q : ℤ) ^ (P - 2)) % (P : ℤ)) * (Q : ℤ) * (-((c ^ ((P + 1) / 4)) % (P : ℤ))) +
          (((P : ℤ) ^ (Q - 2)) % (Q : ℤ)) * (P : ℤ) * (-((c ^ ((Q + 1) / 4)) % (Q : ℤ)))).tmod
            ((P : ℤ) * (Q : ℤ))] := by
    unfold decrypt compute_candidates
    rw [hmp, hmq, hyp, hyq]
    simp only [Option.bind_eq_bind, Option.some_bind, if_neg hn0]
  obtain ⟨x, hx⟩ := hqr
  have hxN : x * x ≡ c [ZMOD ((P : ℤ) * (Q : ℤ))] := by
    show (x * x) % ((P : ℤ) * (Q : ℤ)) = c % ((P : ℤ) * (Q : ℤ))
    rw [hx, Int.emod_eq_of_lt hc0 hcn]
  have hxP : x * x ≡ c [ZMOD (P : ℤ)] := hxN.of_dvd (dvd_mul_right _ _)
  have hxQ : x * x ≡ c [ZMOD (Q : ℤ)] := hxN.of_dvd (dvd_mul_left _ _)
  have hS := crt_sum_sq_modEq P Q c x hP hQ hP4 hQ4 hne hxP hxQ
  have hS3 : ((((Q : ℤ) ^ (P - 2)) % (P : ℤ)) * (Q : ℤ) * (-((c ^ ((P + 1) / 4)) % (P : ℤ))) +
      (((P : ℤ) ^ (Q - 2)) % (Q : ℤ)) * (P : ℤ) * (-((c ^ ((Q + 1) / 4)) % (Q : ℤ)))) *
    ((((Q : ℤ) ^ (P - 2)) % (P : ℤ)) * (Q : ℤ) * (-((c ^ ((P + 1) / 4)) % (P : ℤ))) +
      (((P : ℤ) ^ (Q - 2)) % (Q : ℤ)) * (P : ℤ) * (-((c ^ ((Q + 1) / 4)) % (Q : ℤ))))
      ≡ c [ZMOD ((P : ℤ) * (Q : ℤ))] := by
    have e : ((((Q : ℤ) ^ (P - 2)) % (P : ℤ)) * (Q : ℤ) * (-((c ^ ((P + 1) / 4)) % (P : ℤ))) +
        (((P : ℤ) ^ (Q - 2)) % (Q : ℤ)) * (P : ℤ) * (-((c ^ ((Q + 1) / 4)) % (Q : ℤ)))) *
      ((((Q : ℤ) ^ (P - 2)) % (P : ℤ)) * (Q : ℤ) * (-((c ^ ((P + 1) / 4)) % (P : ℤ))) +
        (((P : ℤ) ^ (Q - 2)) % (Q : ℤ)) * (P : ℤ) * (-((c ^ ((Q + 1) / 4)) % (Q : ℤ)))) =
      ((((Q : ℤ) ^ (P - 2)) % (P : ℤ)) * (Q : ℤ) * ((c ^ ((P + 1) / 4)) % (P : ℤ)) +
        (((P : ℤ) ^ (Q - 2)) % (Q : ℤ)) * (P : ℤ) * ((c ^ ((Q + 1) / 4)) % (Q : ℤ))) *
      ((((Q : ℤ) ^ (P - 2)) % (P : ℤ)) * (Q : ℤ) * ((c ^ ((P + 1) / 4)) % (P : ℤ)) +
        (((P : ℤ) ^ (Q - 2)) % (Q : ℤ)) * (P : ℤ) * ((c ^ ((Q + 1) / 4)) % (Q : ℤ))) := by
      ring
    rw [e]
    exact hS
  have h1 := tmod_sq_modEq ((P : ℤ) * (Q : ℤ)) _ c hS
  have h3 := tmod_sq_modEq ((P : ℤ) * (Q : ℤ)) _ c hS3
  refine ⟨_, hdec, ?_⟩
  intro r hr
  simp only [List.mem_cons, List.not_mem_nil, or_false] at hr
  rcases hr with rfl | rfl | rfl | rfl
  · exact tmod_sq_eq _ _ _ hN0 hc0 hcn h1
  · exact tmod_sq_eq _ _ _ hN0 hc0 hcn (neg_shift_sq _ _ _ h1)
  · exact tmod_sq_eq _ _ _ hN0 hc0 hcn h3
  · exact tmod_sq_eq _ _ _ hN0 hc0 hcn (neg_shift_sq _ _ _ h3)

/-- Witness for c3_candidate_validity: p = 3, q = 7, ciphertext 4 (a
quadratic residue: 2 * 2 = 4). -/
theorem c3_candidate_validity_witness :
    ∃ l, decrypt 4 ((3 : ℕ) : ℤ) ((7 : ℕ) : ℤ) = some l ∧
      ∀ r ∈ l, (r * r).tmod (((3 : ℕ) : ℤ) * ((7 : ℕ) : ℤ)) = 4 :=
  c3_candidate_validity 3 7 4 (by norm_num) (by norm_num) (by decide) (by decide)
    (by decide) (by decide) (by decide) ⟨2, by decide⟩

end NaiveRabin
